import Mathlib

/-!
Verification of the issue-automation bots (`stale_pr_bot.py`, `pr_reopen_bot.py`).

The Python sources are shallowly embedded:
* strings become `List Char`; Python `str.lower()` / `re.IGNORECASE` become
  the ASCII lowering `pyLower` (all keywords, markers and labels are ASCII);
* timestamps (`datetime`) become `Int` seconds, `timedelta.days` becomes
  floored division by 86400 (`Int.fdiv`), exactly as Python floors;
* every remote call that may raise becomes an `Except Unit` value carried by
  the state handed to the function; each distinct call site gets its own
  result (`PR.fetchComments` is indexed by call site because the Python code
  calls `pr.get_issue_comments()` several times and each call may fail
  independently);
* mutations on the remote tracker become an explicit `Effect` trace;
* the long f-string message bodies are abstracted to a `Msg` value carrying
  the message identity and its parameters (no claim depends on their text).
-/

namespace IssueBot

/-- ASCII upper/lower case pairs, used to model Python `str.lower()` and
`re.IGNORECASE` (all compared literals in the sources are ASCII). -/
def upperLower : List (Char × Char) :=
  [ ('A', 'a'), ('B', 'b'), ('C', 'c'), ('D', 'd'), ('E', 'e'), ('F', 'f'),
    ('G', 'g'), ('H', 'h'), ('I', 'i'), ('J', 'j'), ('K', 'k'), ('L', 'l'),
    ('M', 'm'), ('N', 'n'), ('O', 'o'), ('P', 'p'), ('Q', 'q'), ('R', 'r'),
    ('S', 's'), ('T', 't'), ('U', 'u'), ('V', 'v'), ('W', 'w'), ('X', 'x'),
    ('Y', 'y'), ('Z', 'z') ]

/-- ASCII lower-casing of one character. -/
def pyLower (c : Char) : Char :=
  match upperLower.find? (fun p => p.fst == c) with
  | some p => p.snd
  | none => c

/-- The characters matched by the ASCII part of the regex class `\s`
(`[ \t\n\r\v\f]`). -/
def spaceChars : List Char :=
  [ ' ', '\t', '\n', '\r', '\x0b', '\x0c' ]

def isSpaceChar (c : Char) : Bool :=
  spaceChars.contains c

def hashChar : Char := '#'

/-- Value of a run of decimal digits, as `int()` does. -/
def digitsToNat (ds : List Char) : Nat :=
  ds.foldl (fun a c => a * 10 + (c.toNat - 48)) 0

/-- Python's substring test `needle in hay`. -/
def containsSub (needle : List Char) : List Char → Bool
  | [] => needle.isEmpty
  | c :: cs => needle.isPrefixOf (c :: cs) || containsSub needle cs

/-- `SubOf n h` : `n` occurs contiguously inside `h`. -/
def SubOf (n h : List Char) : Prop :=
  ∃ a b, h = a ++ n ++ b

/-! ## The linked-issue extractor

Python (identical in both source files):
```
issue_pattern = r'(?:fix(?:es)?|close[sd]?|resolve[sd]?)\s+#(\d+)'
matches = re.findall(issue_pattern, pr_body, re.IGNORECASE)
return list(set(int(match) for match in matches))
```
The alternation `fix(?:es)?|close[sd]?|resolve[sd]?` with greedy optional
parts and backtracking is exactly the ordered keyword list below: the engine
tries the longer form of each branch first and falls through to the next
alternative when the rest of the pattern fails. -/

/-- Keyword alternatives in the order the regex engine tries them. -/
def keywordAlternatives : List (List Char) :=
  [ "fixes".data, "fix".data, "closes".data, "closed".data, "close".data,
    "resolves".data, "resolved".data, "resolve".data ]

/-- The keyword set as the specification lists it. -/
def specKeywords : List (List Char) :=
  [ "fix".data, "fixes".data, "close".data, "closes".data, "closed".data,
    "resolve".data, "resolves".data, "resolved".data ]

/-- Case-insensitive keyword removal: `stripKeyword k s = some r` when the
lowering of an initial segment of `s` is `k`, leaving `r`. -/
def stripKeyword : List Char → List Char → Option (List Char)
  | [], s => some s
  | _ :: _, [] => none
  | k :: ks, c :: cs => if pyLower c = k then stripKeyword ks cs else none

/-- The part `\s+#(\d+)` of the pattern: at least one whitespace, then `#`,
then a maximal non-empty digit run (greedy `\d+`); returns the captured
number and the remaining text. -/
def matchTail : List Char → Option (Nat × List Char)
  | [] => none
  | c :: r' =>
    if isSpaceChar c then
      match (c :: r').dropWhile isSpaceChar with
      | [] => none
      | h :: r2 =>
        if h = hashChar then
          if r2.takeWhile Char.isDigit = [] then none
          else some (digitsToNat (r2.takeWhile Char.isDigit), r2.dropWhile Char.isDigit)
        else none
    else none

/-- One attempt of the whole pattern at the start of `s`, with the regex
engine's backtracking over the alternatives. -/
def tryAlternatives : List (List Char) → List Char → Option (Nat × List Char)
  | [], _ => none
  | k :: ks, s =>
    match stripKeyword k s with
    | none => tryAlternatives ks s
    | some r =>
      match matchTail r with
      | none => tryAlternatives ks s
      | some z => some z

def matchAt (s : List Char) : Option (Nat × List Char) :=
  tryAlternatives keywordAlternatives s

/-- `re.findall` scanning: leftmost match, continue after its end, else
advance one character.  Each successful match consumes at least one
character, so `s.length` steps of fuel always suffice. -/
def scanBody : Nat → List Char → List Nat
  | 0, _ => []
  | _ + 1, [] => []
  | fuel + 1, c :: cs =>
    match matchAt (c :: cs) with
    | some (n, rest) => n :: scanBody fuel rest
    | none => scanBody fuel cs

/-- `extract_linked_issues` (both bots): empty for a falsy body, otherwise
the deduplicated numbers found by the scan (`list(set(...))`; set order is
arbitrary, the embedding fixes one order). -/
def extract_linked_issues (pr_body : Option (List Char)) : List Nat :=
  match pr_body with
  | none => []
  | some s => if s = [] then [] else (scanBody s.length s).dedup

/-! ## Data model

External entities of the issue tracker, as the bots observe them.  Remote
reads that may raise are `Except Unit` values. -/

/-- A review (`pr.get_reviews()` element): state and submission time. -/
structure Review where
  state : String
  submitted_at : Int
deriving DecidableEq

/-- A commit from `repo.get_commits(sha=pr.head.sha)`: `commit.author` may be
absent (`None`), `commit.commit.author.date` is the commit date. -/
structure Commit where
  authorLogin : Option String
  date : Int
deriving DecidableEq

/-- An issue comment (`pr.get_issue_comments()` element). -/
structure Comment where
  userLogin : String
  userType : String
  body : List Char
  created_at : Int
deriving DecidableEq

/-- An issue (`repo.get_issue(n)`): `isPR` is the truthiness of
`issue.pull_request`. -/
structure Issue where
  number : Nat
  isPR : Bool
  assignees : List String
deriving DecidableEq

/-- A pull request fetched by number (`repo.get_pull(n)`): the fields the
reopen/activity bots read. -/
structure PullInfo where
  authorLogin : String
  body : Option (List Char)
  labels : List String
deriving DecidableEq

/-- The repository handle: lookups by number, each of which may fail. -/
structure Repo where
  issues : Nat → Except Unit Issue
  pulls : Nat → Except Unit PullInfo

/-- An open pull request as the stale bot iterates over it.  The Python code
calls `pr.get_issue_comments()` at several call sites (once inside
`get_days_since_activity`, once per `has_bot_comment` guard), and each remote
call may independently fail, so `fetchComments` is indexed by call site:
`0` for the activity computation, `1` and `2` for the first and second
idempotency-guard calls of the taken branch. -/
structure PR where
  number : Nat
  authorLogin : String
  body : Option (List Char)
  commits : Except Unit (List Commit)
  reviews : Except Unit (List Review)
  fetchComments : Nat → Except Unit (List Comment)

/-- Identity and parameters of each message the bots post.  The literal
f-string text is abstracted away: no claim depends on it. -/
inductive Msg where
  | closeMessage (author : String) (days : Int)
  | unassignMessage (author : String) (days : Int)
  | warningMessage (author : String) (days : Int)
  | welcomeMessage (author : String) (prNumber : Nat)
  | encouragementMessage (user : String)
deriving DecidableEq

/-- One mutation issued against the tracker. -/
inductive Effect where
  | createIssueComment (pr : Nat) (m : Msg)
  | createComment (issue : Nat) (m : Msg)
  | editState (pr : Nat) (state : String)
  | addLabel (pr : Nat) (l : String)
  | removeLabel (pr : Nat) (l : String)
  | addAssignee (issue : Nat) (user : String)
  | removeAssignee (issue : Nat) (user : String)
deriving DecidableEq

/-! ## Stale-PR bot (`stale_pr_bot.py`) -/

def DAYS_BEFORE_STALE_WARNING : Int := 7

def DAYS_BEFORE_UNASSIGN : Int := 14

def DAYS_BEFORE_CLOSE : Int := 60

/-- `StalePRBot.get_days_since_activity`: days since the author's last
activity after the changes-requested timestamp; `0` when the timestamp is
absent or either remote listing fails.  `timedelta.days` floors, hence
`Int.fdiv`. -/
def get_days_since_activity (now : Int) (pr : PR) (last_changes_requested : Option Int) : Int :=
  match last_changes_requested with
  | none => 0
  | some lcr =>
    match pr.commits, pr.fetchComments 0 with
    | Except.ok commits, Except.ok comments =>
      let la1 : Option Int := commits.foldl (fun la c =>
        if lcr < c.date then
          if c.authorLogin = some pr.authorLogin then
            match la with
            | none => some c.date
            | some d => if d < c.date then some c.date else some d
          else la
        else la) none
      let la2 : Option Int := comments.foldl (fun la c =>
        if c.userLogin = pr.authorLogin then
          if lcr < c.created_at then
            match la with
            | none => some c.created_at
            | some d => if d < c.created_at then some c.created_at else some d
          else la
        else la) la1
      let reference := la2.getD lcr
      (now - reference).fdiv 86400
    | _, _ => 0

/-- `StalePRBot.get_last_changes_requested`: the submission time of the most
recent review in state `CHANGES_REQUESTED`; `none` when there is none or the
listing fails.  Sorting descending by `submitted_at` and taking the head
yields the maximal `submitted_at`, computed here by a fold. -/
def get_last_changes_requested (pr : PR) : Option Int :=
  match pr.reviews with
  | Except.error _ => none
  | Except.ok reviews =>
    match reviews.filter (fun r => r.state = "CHANGES_REQUESTED") with
    | [] => none
    | r :: rest => some (rest.foldl (fun m x => max m x.submitted_at) r.submitted_at)

/-- `StalePRBot.has_bot_comment`: whether some comment of the fetched list
is by a user of type `Bot` and contains the marker (both lowered); `false`
when the listing fails.  The fetch result is passed in explicitly. -/
def has_bot_comment (fetched : Except Unit (List Comment)) (comment_type : List Char) : Bool :=
  match fetched with
  | Except.error _ => false
  | Except.ok comments =>
    comments.any (fun c =>
      c.userType == "Bot" && containsSub (comment_type.map pyLower) (c.body.map pyLower))

/-- `StalePRBot.unassign_linked_issues`: for every linked issue that is an
actual issue and currently assigned to the PR author, remove the author;
lookup failures skip the issue.  Returns the effect trace and the count. -/
def unassign_linked_issues (repo : Repo) (pr : PR) : List Effect × Nat :=
  (extract_linked_issues pr.body).foldl (fun acc issue_number =>
    match repo.issues issue_number with
    | Except.error _ => acc
    | Except.ok issue =>
      if issue.isPR then acc
      else if pr.authorLogin ∈ issue.assignees then
        (acc.1 ++ [Effect.removeAssignee issue_number pr.authorLogin], acc.2 + 1)
      else acc) ([], 0)

/-- `StalePRBot.close_stale_pr`: closing comment, close the PR, unassign the
linked issues. -/
def close_stale_pr (repo : Repo) (pr : PR) (days_inactive : Int) : List Effect :=
  Effect.createIssueComment pr.number (Msg.closeMessage pr.authorLogin days_inactive)
    :: Effect.editState pr.number "closed"
    :: (unassign_linked_issues repo pr).1

/-- `StalePRBot.mark_pr_stale`: notice comment, unassign the linked issues,
add the `stale` label. -/
def mark_pr_stale (repo : Repo) (pr : PR) (days_inactive : Int) : List Effect :=
  Effect.createIssueComment pr.number (Msg.unassignMessage pr.authorLogin days_inactive)
    :: (unassign_linked_issues repo pr).1
    ++ [Effect.addLabel pr.number "stale"]

/-- `StalePRBot.send_stale_warning`: the reminder comment. -/
def send_stale_warning (pr : PR) (days_inactive : Int) : List Effect :=
  [Effect.createIssueComment pr.number (Msg.warningMessage pr.authorLogin days_inactive)]

/-- The per-PR body of `StalePRBot.process_stale_prs`: skip without a
changes-requested review, otherwise apply the highest tier whose threshold
is met, the warn and unassign tiers guarded by `has_bot_comment` scans. -/
def process_one_pr (repo : Repo) (now : Int) (pr : PR) : List Effect :=
  match get_last_changes_requested pr with
  | none => []
  | some last_changes_requested =>
    let days_inactive := get_days_since_activity now pr (some last_changes_requested)
    if DAYS_BEFORE_CLOSE ≤ days_inactive then
      close_stale_pr repo pr days_inactive
    else if DAYS_BEFORE_UNASSIGN ≤ days_inactive then
      if !has_bot_comment (pr.fetchComments 1) "stale".data
          && !has_bot_comment (pr.fetchComments 2) "unassigned".data then
        mark_pr_stale repo pr days_inactive
      else []
    else if DAYS_BEFORE_STALE_WARNING ≤ days_inactive then
      if !has_bot_comment (pr.fetchComments 1) "reminder".data
          && !has_bot_comment (pr.fetchComments 2) "stale warning".data then
        send_stale_warning pr days_inactive
      else []
    else []

/-! ## Reopen bot (`pr_reopen_bot.py`, `PRReopenBot`) -/

/-- The loop body of `PRReopenBot.reassign_issues_to_author` for one linked
issue: skip lookup failures (404 or other) and pull requests; skip when
assignees exist that do not include the author; add the author and post the
welcome comment only when the author is not already assigned. -/
def reassignStep (repo : Repo) (pr_number : Nat) (pr_author : String)
    (acc : List Effect × List Nat) (issue_number : Nat) : List Effect × List Nat :=
  match repo.issues issue_number with
  | Except.error _ => acc
  | Except.ok issue =>
    if issue.isPR then acc
    else if issue.assignees ≠ [] ∧ pr_author ∉ issue.assignees then acc
    else if pr_author ∉ issue.assignees then
      (acc.1 ++ [Effect.addAssignee issue_number pr_author,
                 Effect.createComment issue_number (Msg.welcomeMessage pr_author pr_number)],
       acc.2 ++ [issue_number])
    else acc

/-- `PRReopenBot.reassign_issues_to_author`: the loop above over the linked
issues.  Returns the effect trace and the list of reassigned issue
numbers. -/
def reassign_issues_to_author (repo : Repo) (pr_number : Nat) (pr_author : String)
    (pr_body : Option (List Char)) : List Effect × List Nat :=
  (extract_linked_issues pr_body).foldl (reassignStep repo pr_number pr_author) ([], [])

/-- `PRReopenBot.remove_stale_label`: remove the `stale` label if present;
returns the effect trace and the success flag. -/
def remove_stale_label (repo : Repo) (pr_number : Nat) : List Effect × Bool :=
  match repo.pulls pr_number with
  | Except.error _ => ([], false)
  | Except.ok pr =>
    if "stale" ∈ pr.labels then ([Effect.removeLabel pr_number "stale"], true)
    else ([], false)

/-- The `pull_request` object of a `pull_request_target` event payload;
each field may be absent. -/
structure PRPayload where
  number : Option Nat
  userLogin : Option String
  body : Option (List Char)

/-- The payload of a reopen event (`payload.get('pull_request', {})`). -/
structure ReopenPayload where
  pull_request : Option PRPayload

/-- `PRReopenBot.handle_pr_reopen`: fail without a payload or when the PR
number or author is falsy (`not all([pr_number, pr_author])`); otherwise
reassign the linked issues, then remove the stale label; return whether at
least one issue was reassigned. -/
def handle_pr_reopen (repo : Repo) (payload : Option ReopenPayload) : List Effect × Bool :=
  match payload with
  | none => ([], false)
  | some p =>
    let pr_number : Nat := ((p.pull_request.bind (fun q => q.number)).getD 0)
    let pr_author : String := ((p.pull_request.bind (fun q => q.userLogin)).getD "")
    let pr_body : Option (List Char) := p.pull_request.bind (fun q => q.body)
    if pr_number = 0 ∨ pr_author = "" then ([], false)
    else
      let reassigned := reassign_issues_to_author repo pr_number pr_author pr_body
      let removal := remove_stale_label repo pr_number
      (reassigned.1 ++ removal.1, decide (0 < reassigned.2.length))

/-! ## Activity bot (`pr_reopen_bot.py`, `PRActivityBot`) -/

/-- The fields the activity bot reads from an `issue_comment` payload. -/
structure CommentPayload where
  issueNumber : Option Nat
  commenterLogin : Option String

/-- The loop body of `PRActivityBot.handle_contributor_activity` for one
linked issue: skip lookup failures and pull requests, assign the commenter
only when the issue has no assignees at all. -/
def activityStep (repo : Repo) (commenter : String)
    (acc : List Effect × Nat) (issue_number : Nat) : List Effect × Nat :=
  match repo.issues issue_number with
  | Except.error _ => acc
  | Except.ok issue =>
    if issue.isPR then acc
    else if issue.assignees = [] then
      (acc.1 ++ [Effect.addAssignee issue_number commenter], acc.2 + 1)
    else acc

/-- `PRActivityBot.handle_contributor_activity`: abort without payload data,
when the PR lookup fails, when the commenter is not the PR author, or when
the PR has no `stale` label.  Otherwise remove the label, assign the
commenter to every linked issue that has no assignees, and post the
encouragement comment. -/
def handle_contributor_activity (repo : Repo) (payload : Option CommentPayload) :
    List Effect × Bool :=
  match payload with
  | none => ([], false)
  | some p =>
    let pr_number : Nat := p.issueNumber.getD 0
    let commenter : String := p.commenterLogin.getD ""
    if pr_number = 0 ∨ commenter = "" then ([], false)
    else
      match repo.pulls pr_number with
      | Except.error _ => ([], false)
      | Except.ok pr =>
        if commenter ≠ pr.authorLogin then ([], false)
        else if "stale" ∉ pr.labels then ([], false)
        else
          let removal := [Effect.removeLabel pr_number "stale"]
          let reassign := (extract_linked_issues pr.body).foldl
            (activityStep repo commenter) (([] : List Effect), (0 : Nat))
          (removal ++ reassign.1
            ++ [Effect.createIssueComment pr_number (Msg.encouragementMessage commenter)],
           true)

/-! ## Lemmas about the linked-issue extractor -/

/-- A character that can occur in the `\s+#\d+` part of a match. -/
def isRefBad (c : Char) : Bool :=
  isSpaceChar c || c == hashChar || c.isDigit

theorem pyLower_cases (c d : Char) (h : pyLower c = d) : c = d ∨ (c, d) ∈ upperLower := by
  unfold pyLower at h
  cases hf : upperLower.find? (fun p => p.fst == c) with
  | none => rw [hf] at h; exact Or.inl h
  | some p =>
    rw [hf] at h
    have hmem := List.mem_of_find?_eq_some hf
    have hp := List.find?_some hf
    have : p.fst = c := by simpa using hp
    right
    rw [← this, ← h]
    exact hmem

theorem kw_chars_good : ∀ kw ∈ specKeywords, ∀ ch ∈ kw, isRefBad ch = false := by decide

theorem upper_chars_good : ∀ p ∈ upperLower, isRefBad p.fst = false := by decide

theorem kw_ne_nil : ∀ kw ∈ specKeywords, kw ≠ [] := by decide

theorem alt_mem_spec : ∀ k ∈ keywordAlternatives, k ∈ specKeywords := by decide

theorem spec_mem_alt : ∀ k ∈ specKeywords, k ∈ keywordAlternatives := by decide

theorem no_kw_suffix_aux :
    ∀ k ∈ specKeywords, ∀ k2 ∈ specKeywords, ∀ i ∈ List.range (k.length + 1),
      i = 0 ∨ k.drop i ≠ k2 := by decide

/-- No keyword has a proper suffix that is again a keyword. -/
theorem no_kw_suffix (k k2 : List Char) (hk : k ∈ specKeywords) (hk2 : k2 ∈ specKeywords)
    (i : Nat) (hi : 0 < i) : k.drop i ≠ k2 := by
  by_cases hlen : i ≤ k.length
  · have : i ∈ List.range (k.length + 1) := List.mem_range.mpr (Nat.lt_succ_of_le hlen)
    rcases no_kw_suffix_aux k hk k2 hk2 i this with h0 | hne
    · omega
    · exact hne
  · have : k.drop i = [] := List.drop_eq_nil_of_le (by omega)
    rw [this]
    exact fun h => kw_ne_nil k2 hk2 h.symm

/-- A bad character's lowering never occurs in a keyword. -/
theorem bad_lower_not_kw (c : Char) (kw : List Char) (hbad : isRefBad c = true)
    (hkw : kw ∈ specKeywords) : pyLower c ∉ kw := by
  intro hmem
  rcases pyLower_cases c (pyLower c) rfl with heq | hpair
  · have := kw_chars_good kw hkw (pyLower c) hmem
    rw [← heq] at this
    rw [this] at hbad
    exact Bool.false_ne_true hbad
  · have := upper_chars_good (c, pyLower c) hpair
    simp only at this
    rw [this] at hbad
    exact Bool.false_ne_true hbad

theorem isSpaceChar_bad (c : Char) (h : isSpaceChar c = true) : isRefBad c = true := by
  simp [isRefBad, h]

theorem hashChar_bad : isRefBad hashChar = true := by decide

theorem isDigit_bad (c : Char) (h : c.isDigit = true) : isRefBad c = true := by
  simp [isRefBad, h]

theorem hash_not_space : isSpaceChar hashChar = false := by decide

theorem stripKeyword_iff (k s r : List Char) :
    stripKeyword k s = some r ↔ ∃ pre, s = pre ++ r ∧ pre.map pyLower = k := by
  induction k generalizing s with
  | nil =>
    simp only [stripKeyword]
    constructor
    · intro h
      injection h with h
      exact ⟨[], by simp [h], rfl⟩
    · rintro ⟨pre, hs, hmap⟩
      have : pre = [] := List.map_eq_nil_iff.mp hmap
      subst this
      simp [hs]
  | cons kc ks ih =>
    cases s with
    | nil =>
      simp only [stripKeyword]
      constructor
      · intro h; exact absurd h (by simp)
      · rintro ⟨pre, hs, hmap⟩
        cases pre with
        | nil => simp at hmap
        | cons p ps => simp at hs
    | cons c cs =>
      simp only [stripKeyword]
      by_cases hc : pyLower c = kc
      · rw [if_pos hc, ih]
        constructor
        · rintro ⟨pre, hcs, hmap⟩
          exact ⟨c :: pre, by simp [hcs], by simp [hmap, hc]⟩
        · rintro ⟨pre, hs, hmap⟩
          cases pre with
          | nil => simp at hmap
          | cons p ps =>
            simp only [List.cons_append, List.cons.injEq] at hs
            simp only [List.map_cons, List.cons.injEq] at hmap
            exact ⟨ps, hs.2, hmap.2⟩
      · rw [if_neg hc]
        constructor
        · intro h; exact absurd h (by simp)
        · rintro ⟨pre, hs, hmap⟩
          cases pre with
          | nil => simp at hmap
          | cons p ps =>
            simp only [List.cons_append, List.cons.injEq] at hs
            simp only [List.map_cons, List.cons.injEq] at hmap
            rw [← hs.1] at hmap
            exact absurd hmap.1 hc

theorem dropWhile_head_false {p : Char → Bool} :
    ∀ (l : List Char) (c : Char), (l.dropWhile p).head? = some c → p c = false := by
  intro l
  induction l with
  | nil => intro c h; simp [List.dropWhile] at h
  | cons x xs ih =>
    intro c h
    by_cases hx : p x
    · rw [List.dropWhile_cons, if_pos hx] at h
      exact ih c h
    · rw [List.dropWhile_cons, if_neg hx] at h
      simp only [List.head?_cons, Option.some.injEq] at h
      rw [← h]
      exact Bool.of_not_eq_true hx

theorem dropWhile_append_all {p : Char → Bool} :
    ∀ (a b : List Char), (∀ c ∈ a, p c = true) → (a ++ b).dropWhile p = b.dropWhile p := by
  intro a
  induction a with
  | nil => intro b _; rfl
  | cons x xs ih =>
    intro b h
    rw [List.cons_append, List.dropWhile_cons, if_pos (h x (by simp))]
    exact ih b (fun c hc => h c (by simp [hc]))

theorem takeWhile_append_all {p : Char → Bool} :
    ∀ (a b : List Char), (∀ c ∈ a, p c = true) →
      (a ++ b).takeWhile p = a ++ b.takeWhile p := by
  intro a
  induction a with
  | nil => intro b _; rfl
  | cons x xs ih =>
    intro b h
    rw [List.cons_append, List.takeWhile_cons, if_pos (h x (by simp))]
    rw [ih b (fun c hc => h c (by simp [hc]))]
    rfl

theorem takeWhile_nil_of_head {p : Char → Bool} (b : List Char)
    (h : ∀ c, b.head? = some c → p c = false) : b.takeWhile p = [] := by
  cases b with
  | nil => rfl
  | cons x xs =>
    rw [List.takeWhile_cons, if_neg]
    rw [h x rfl]
    simp

theorem dropWhile_nil_of_head {p : Char → Bool} (b : List Char)
    (h : ∀ c, b.head? = some c → p c = false) : b.dropWhile p = b := by
  cases b with
  | nil => rfl
  | cons x xs =>
    rw [List.dropWhile_cons, if_neg]
    rw [h x rfl]
    simp

theorem matchTail_some (r : List Char) (n : Nat) (rest : List Char)
    (h : matchTail r = some (n, rest)) :
    ∃ sp ds, r = sp ++ hashChar :: (ds ++ rest) ∧ sp ≠ [] ∧
      (∀ c ∈ sp, isSpaceChar c = true) ∧ ds ≠ [] ∧ (∀ c ∈ ds, c.isDigit = true) ∧
      (∀ c, rest.head? = some c → c.isDigit = false) ∧ digitsToNat ds = n := by
  cases r with
  | nil => simp [matchTail] at h
  | cons c r' =>
    simp only [matchTail] at h
    by_cases hc : isSpaceChar c
    · rw [if_pos hc] at h
      cases hd : (c :: r').dropWhile isSpaceChar with
      | nil => rw [hd] at h; simp at h
      | cons hh r2 =>
        rw [hd] at h
        simp only [] at h
        by_cases hh' : hh = hashChar
        · rw [if_pos hh'] at h
          by_cases hds : r2.takeWhile Char.isDigit = []
          · rw [if_pos hds] at h; simp at h
          · rw [if_neg hds] at h
            simp only [Option.some.injEq, Prod.mk.injEq] at h
            refine ⟨(c :: r').takeWhile isSpaceChar, r2.takeWhile Char.isDigit, ?_, ?_, ?_, hds, ?_, ?_, h.1⟩
            · have h1 : (c :: r').takeWhile isSpaceChar ++ (c :: r').dropWhile isSpaceChar = c :: r' :=
                List.takeWhile_append_dropWhile isSpaceChar (c :: r')
              rw [hd, hh'] at h1
              have h2 : r2.takeWhile Char.isDigit ++ r2.dropWhile Char.isDigit = r2 :=
                List.takeWhile_append_dropWhile Char.isDigit r2
              rw [← h.2, h2]
              exact h1.symm
            · rw [List.takeWhile_cons, if_pos hc]; simp
            · intro x hx; exact List.mem_takeWhile_imp hx
            · intro x hx; exact List.mem_takeWhile_imp hx
            · intro x hx
              rw [← h.2] at hx
              exact dropWhile_head_false r2 x hx
        · rw [if_neg hh'] at h; simp at h
    · rw [if_neg hc] at h; simp at h

theorem matchTail_complete (sp ds rest : List Char)
    (hsp : sp ≠ []) (hspall : ∀ c ∈ sp, isSpaceChar c = true)
    (hds : ds ≠ []) (hdsall : ∀ c ∈ ds, c.isDigit = true)
    (hrest : ∀ c, rest.head? = some c → c.isDigit = false) :
    matchTail (sp ++ hashChar :: (ds ++ rest)) = some (digitsToNat ds, rest) := by
  rcases List.exists_cons_of_ne_nil hsp with ⟨c, sp', hsp'⟩
  subst hsp'
  rw [List.cons_append]
  simp only [matchTail]
  have hc : isSpaceChar c = true := hspall c (by simp)
  rw [if_pos hc]
  have hdrop : ((c :: sp') ++ hashChar :: (ds ++ rest)).dropWhile isSpaceChar
      = hashChar :: (ds ++ rest) := by
    rw [dropWhile_append_all _ _ hspall, List.dropWhile_cons, if_neg (by rw [hash_not_space]; simp)]
  rw [List.cons_append] at hdrop
  rw [hdrop]
  simp only [if_pos rfl]
  have htake : (ds ++ rest).takeWhile Char.isDigit = ds := by
    rw [takeWhile_append_all _ _ hdsall, takeWhile_nil_of_head rest hrest, List.append_nil]
  have hdropd : (ds ++ rest).dropWhile Char.isDigit = rest := by
    rw [dropWhile_append_all _ _ hdsall, dropWhile_nil_of_head rest hrest]
  rw [htake, if_neg hds, hdropd]
  simp

/-- A reference as the specification describes it, split at `t`: a keyword
of the documented set matched case-insensitively, at least one whitespace,
`#`, a maximal non-empty digit run with value `n`, then `rest`. -/
def IsRefSplit (t : List Char) (n : Nat) (rest : List Char) : Prop :=
  ∃ kw pre sp ds, kw ∈ specKeywords ∧ pre.map pyLower = kw ∧
    sp ≠ [] ∧ (∀ c ∈ sp, isSpaceChar c = true) ∧
    ds ≠ [] ∧ (∀ c ∈ ds, c.isDigit = true) ∧
    (∀ c, rest.head? = some c → c.isDigit = false) ∧
    digitsToNat ds = n ∧
    t = pre ++ (sp ++ hashChar :: (ds ++ rest))

/-- `t` starts with a reference to issue `n`. -/
def IsRefDecomp (t : List Char) (n : Nat) : Prop :=
  ∃ rest, IsRefSplit t n rest

/-- `s` contains a reference to issue `n` somewhere. -/
def RefIn (s : List Char) (n : Nat) : Prop :=
  ∃ a t, s = a ++ t ∧ IsRefDecomp t n

theorem tryAlternatives_some (L : List (List Char)) (s : List Char) (z : Nat × List Char)
    (h : tryAlternatives L s = some z) :
    ∃ k ∈ L, ∃ t, stripKeyword k s = some t ∧ matchTail t = some z := by
  induction L with
  | nil => simp [tryAlternatives] at h
  | cons k ks ih =>
    simp only [tryAlternatives] at h
    cases hstrip : stripKeyword k s with
    | none =>
      rw [hstrip] at h
      simp only [] at h
      rcases ih h with ⟨k2, hk2, t, h1, h2⟩
      exact ⟨k2, by simp [hk2], t, h1, h2⟩
    | some t =>
      rw [hstrip] at h
      simp only [] at h
      cases hmt : matchTail t with
      | none =>
        rw [hmt] at h
        simp only [] at h
        rcases ih h with ⟨k2, hk2, t2, h1, h2⟩
        exact ⟨k2, by simp [hk2], t2, h1, h2⟩
      | some z2 =>
        rw [hmt] at h
        simp only [Option.some.injEq] at h
        exact ⟨k, by simp, t, hstrip, by rw [hmt, h]⟩

theorem tryAlternatives_complete (L : List (List Char)) (s : List Char) (k : List Char)
    (hk : k ∈ L) (t : List Char) (hstrip : stripKeyword k s = some t)
    (z : Nat × List Char) (hmt : matchTail t = some z) :
    ∃ z2, tryAlternatives L s = some z2 := by
  induction L with
  | nil => simp at hk
  | cons k0 ks ih =>
    simp only [tryAlternatives]
    cases hstrip0 : stripKeyword k0 s with
    | none =>
      simp only []
      rcases List.mem_cons.mp hk with hkk | hkk
      · subst hkk; rw [hstrip0] at hstrip; exact absurd hstrip (by simp)
      · exact ih hkk
    | some r =>
      simp only []
      cases hmt0 : matchTail r with
      | none =>
        simp only []
        rcases List.mem_cons.mp hk with hkk | hkk
        · subst hkk
          rw [hstrip0] at hstrip
          injection hstrip with hstrip
          rw [hstrip] at hmt0
          rw [hmt0] at hmt
          exact absurd hmt (by simp)
        · exact ih hkk
      | some z0 => exact ⟨z0, rfl⟩

theorem matchAt_sound (s : List Char) (n : Nat) (rest : List Char)
    (h : matchAt s = some (n, rest)) : IsRefSplit s n rest := by
  rcases tryAlternatives_some _ _ _ h with ⟨k, hkL, t, hstrip, hmt⟩
  rcases (stripKeyword_iff k s t).mp hstrip with ⟨pre, hs, hmap⟩
  rcases matchTail_some t n rest hmt with ⟨sp, ds, ht, hsp, hspall, hds, hdsall, hrest, hn⟩
  exact ⟨k, pre, sp, ds, alt_mem_spec k hkL, hmap, hsp, hspall, hds, hdsall, hrest, hn,
    by rw [hs, ht]⟩

theorem matchAt_complete (s : List Char) (n : Nat) (rest : List Char)
    (h : IsRefSplit s n rest) : ∃ z, matchAt s = some z := by
  rcases h with ⟨kw, pre, sp, ds, hkw, hmap, hsp, hspall, hds, hdsall, hrest, _, hs⟩
  have hstrip : stripKeyword kw s = some (sp ++ hashChar :: (ds ++ rest)) :=
    (stripKeyword_iff _ _ _).mpr ⟨pre, hs, hmap⟩
  have hmt := matchTail_complete sp ds rest hsp hspall hds hdsall hrest
  exact tryAlternatives_complete _ s kw (spec_mem_alt kw hkw) _ hstrip _ hmt

theorem append_runs_unique {p : Char → Bool} :
    ∀ (a a' b b' : List Char), (∀ c ∈ a, p c = true) → (∀ c ∈ a', p c = true) →
      (∀ c, b.head? = some c → p c = false) → (∀ c, b'.head? = some c → p c = false) →
      a ++ b = a' ++ b' → a = a' ∧ b = b' := by
  intro a
  induction a with
  | nil =>
    intro a' b b' _ ha' hb _ h
    cases a' with
    | nil => simpa using h
    | cons x xs =>
      exfalso
      have hx : p x = true := ha' x (by simp)
      have hhd : b.head? = some x := by
        simp only [List.nil_append] at h
        rw [h]
        simp
      rw [hb x hhd] at hx
      exact Bool.false_ne_true hx
  | cons x xs ih =>
    intro a' b b' ha ha' hb hb' h
    cases a' with
    | nil =>
      exfalso
      have hx : p x = true := ha x (by simp)
      have hhd : b'.head? = some x := by
        simp only [List.nil_append] at h
        rw [← h]
        simp
      rw [hb' x hhd] at hx
      exact Bool.false_ne_true hx
    | cons y ys =>
      simp only [List.cons_append, List.cons.injEq] at h
      have := ih ys b b' (fun c hc => ha c (by simp [hc])) (fun c hc => ha' c (by simp [hc]))
        hb hb' h.2
      exact ⟨by rw [h.1, this.1], this.2⟩

theorem head_of_append_eq {a : List Char} {x : Char} {y b : List Char}
    (ha : a ≠ []) (h : a ++ b = x :: y) : ∃ a2, a = x :: a2 := by
  cases a with
  | nil => exact absurd rfl ha
  | cons c cs =>
    rw [List.cons_append] at h
    injection h with h1 _
    exact ⟨cs, by rw [h1]⟩

theorem hashcons_head_not_space (ds rest : List Char) :
    ∀ c, (hashChar :: (ds ++ rest)).head? = some c → isSpaceChar c = false := by
  intro c hc
  simp only [List.head?_cons, Option.some.injEq] at hc
  rw [← hc]
  exact hash_not_space

/-- At a fixed position, the reference (its number and what follows it) is
unique: two spec decompositions of the same text agree. -/
theorem refsplit_unique (s : List Char) (n n2 : Nat) (rest rest2 : List Char)
    (h : IsRefSplit s n rest) (h2 : IsRefSplit s n2 rest2) : n = n2 ∧ rest = rest2 := by
  obtain ⟨kw, pre, sp, ds, hkw, hmap, hsp, hspall, hds, hdsall, hrest, hn, hs⟩ := h
  obtain ⟨kw2, pre2, sp2, ds2, hkw2, hmap2, hsp2, hspall2, hds2, hdsall2, hrest2, hn2, hs2⟩ := h2
  have heq : pre ++ (sp ++ hashChar :: (ds ++ rest)) = pre2 ++ (sp2 ++ hashChar :: (ds2 ++ rest2)) :=
    hs.symm.trans hs2
  have hpre : pre = pre2 := by
    rcases List.append_eq_append_iff.mp heq with ⟨u, hu1, hu2⟩ | ⟨u, hu1, hu2⟩
    · cases u with
      | nil => rw [hu1]; simp
      | cons c u2 =>
        exfalso
        rw [List.cons_append] at hu2
        rcases head_of_append_eq hsp hu2 with ⟨sp0, hsp0⟩
        have hcpre2 : c ∈ pre2 := by rw [hu1]; simp
        have hlow : pyLower c ∈ kw2 := hmap2 ▸ List.mem_map_of_mem pyLower hcpre2
        have hcsp : isSpaceChar c = true := hspall c (by rw [hsp0]; simp)
        exact bad_lower_not_kw c kw2 (isSpaceChar_bad c hcsp) hkw2 hlow
    · cases u with
      | nil => rw [hu1]; simp
      | cons c u2 =>
        exfalso
        rw [List.cons_append] at hu2
        rcases head_of_append_eq hsp2 hu2 with ⟨sp0, hsp0⟩
        have hcpre : c ∈ pre := by rw [hu1]; simp
        have hlow : pyLower c ∈ kw := hmap ▸ List.mem_map_of_mem pyLower hcpre
        have hcsp : isSpaceChar c = true := hspall2 c (by rw [hsp0]; simp)
        exact bad_lower_not_kw c kw (isSpaceChar_bad c hcsp) hkw hlow
  subst hpre
  have heq2 : sp ++ hashChar :: (ds ++ rest) = sp2 ++ hashChar :: (ds2 ++ rest2) :=
    List.append_cancel_left heq
  have hstep2 := append_runs_unique sp sp2 (hashChar :: (ds ++ rest)) (hashChar :: (ds2 ++ rest2))
    hspall hspall2 (hashcons_head_not_space ds rest) (hashcons_head_not_space ds2 rest2) heq2
  have heq3 : ds ++ rest = ds2 ++ rest2 := by
    have := hstep2.2
    injection this
  have hstep3 := append_runs_unique ds ds2 rest rest2 hdsall hdsall2 hrest hrest2 heq3
  constructor
  · rw [← hn, ← hn2, hstep3.1]
  · exact hstep3.2

/-- No reference can start strictly inside the consumed part of a match:
when `s` splits as a match followed by `rest` and also as `a ++ t` with
`a ≠ []` and a reference starting `t`, then `t` lies within `rest`. -/
theorem ref_inside_rest (s : List Char) (m : Nat) (rest : List Char)
    (hsplit : IsRefSplit s m rest) (a t : List Char) (heq : s = a ++ t) (ha : a ≠ [])
    (n : Nat) (href : IsRefDecomp t n) : ∃ w, rest = w ++ t := by
  obtain ⟨kw, pre, sp, ds, hkw, hmap, hsp, hspall, hds, hdsall, _, _, hs⟩ := hsplit
  obtain ⟨rest2, kw2, pre2, sp2, ds2, hkw2, hmap2, hsp2, hspall2, _, _, _, _, ht⟩ := href
  have hpre2ne : pre2 ≠ [] := by
    intro h
    exact kw_ne_nil kw2 hkw2 (by rw [← hmap2, h]; rfl)
  have hcons : s = (pre ++ (sp ++ hashChar :: ds)) ++ rest := by
    rw [hs]; simp [List.append_assoc]
  rw [heq] at hcons
  rcases List.append_eq_append_iff.mp hcons with ⟨u, hu1, hu2⟩ | ⟨w, _, hw2⟩
  · -- a ends inside (or at the end of) the consumed part
    cases u with
    | nil =>
      simp only [List.append_nil] at hu1
      rw [List.nil_append] at hu2
      exact ⟨[], by rw [hu2]; rfl⟩
    | cons u0 u2 =>
      exfalso
      -- split a against pre
      rcases List.append_eq_append_iff.mp hu1.symm with ⟨v, hv1, hv2⟩ | ⟨w2, hw1, hw2⟩
      · -- a inside pre, v the remainder of pre: t = v ++ (sp ++ # :: (ds ++ rest))
        have htv : t = v ++ (sp ++ hashChar :: (ds ++ rest)) := by
          rw [hu2, hv2]
          simp [List.append_assoc]
        rw [ht] at htv
        rcases List.append_eq_append_iff.mp htv.symm with ⟨x, hx1, hx2⟩ | ⟨x, hx1, hx2⟩
        · -- pre2 = v ++ x
          cases x with
          | nil =>
            simp only [List.append_nil] at hx1
            -- pre2 = v, hence kw2 would be a proper suffix of kw
            have hkw2v : v.map pyLower = kw2 := by rw [← hx1]; exact hmap2
            have hlen : (a.map pyLower).length = a.length := List.length_map a pyLower
            have hkwdrop : kw.drop a.length = kw2 := by
              rw [← hmap, hv1, List.map_append, ← hlen, List.drop_left, hkw2v]
            exact no_kw_suffix kw kw2 hkw hkw2 a.length (List.length_pos.mpr ha) hkwdrop
          | cons x0 x2 =>
            rw [List.cons_append] at hx2
            rcases head_of_append_eq hsp hx2 with ⟨sp0, hsp0⟩
            have hx0pre2 : x0 ∈ pre2 := by rw [hx1]; simp
            have hlow : pyLower x0 ∈ kw2 := hmap2 ▸ List.mem_map_of_mem pyLower hx0pre2
            have hx0sp : isSpaceChar x0 = true := hspall x0 (by rw [hsp0]; simp)
            exact bad_lower_not_kw x0 kw2 (isSpaceChar_bad x0 hx0sp) hkw2 hlow
        · -- v = pre2 ++ x
          cases x with
          | nil =>
            simp only [List.append_nil] at hx1
            have hkw2v : v.map pyLower = kw2 := by rw [hx1]; exact hmap2
            have hlen : (a.map pyLower).length = a.length := List.length_map a pyLower
            have hkwdrop : kw.drop a.length = kw2 := by
              rw [← hmap, hv1, List.map_append, ← hlen, List.drop_left, hkw2v]
            exact no_kw_suffix kw kw2 hkw hkw2 a.length (List.length_pos.mpr ha) hkwdrop
          | cons x0 x2 =>
            rw [List.cons_append] at hx2
            rcases head_of_append_eq hsp2 hx2 with ⟨sp0, hsp0⟩
            have hx0pre : x0 ∈ pre := by rw [hv1, hx1]; simp
            have hlow : pyLower x0 ∈ kw := hmap ▸ List.mem_map_of_mem pyLower hx0pre
            have hx0sp : isSpaceChar x0 = true := hspall2 x0 (by rw [hsp0]; simp)
            exact bad_lower_not_kw x0 kw (isSpaceChar_bad x0 hx0sp) hkw hlow
      · -- a = pre ++ w2 : the reference would start at a bad character
        have hu0mem : u0 ∈ sp ++ hashChar :: ds := by
          rw [hw2]; simp
        have hbad : isRefBad u0 = true := by
          rcases List.mem_append.mp hu0mem with hmem | hmem
          · exact isSpaceChar_bad u0 (hspall u0 hmem)
          · rcases List.mem_cons.mp hmem with hmem2 | hmem2
            · rw [hmem2]; exact hashChar_bad
            · exact isDigit_bad u0 (hdsall u0 hmem2)
        have htu : t = u0 :: (u2 ++ rest) := by rw [hu2]; rfl
        rw [ht] at htu
        rcases head_of_append_eq hpre2ne htu with ⟨p2, hp2⟩
        have hu0pre2 : u0 ∈ pre2 := by rw [hp2]; simp
        have hlow : pyLower u0 ∈ kw2 := hmap2 ▸ List.mem_map_of_mem pyLower hu0pre2
        exact bad_lower_not_kw u0 kw2 hbad hkw2 hlow
  · exact ⟨w, hw2⟩

theorem refIn_nil (n : Nat) : ¬ RefIn [] n := by
  rintro ⟨a, t, heq, rest2, kw, pre, sp, ds, _, _, hsp, _, _, _, _, _, ht⟩
  have hat := (List.append_eq_nil.mp heq.symm).2
  rw [hat] at ht
  rcases (List.append_eq_nil.mp ht.symm) with ⟨_, h2⟩
  rcases (List.append_eq_nil.mp h2) with ⟨hspnil, _⟩
  exact hsp hspnil

/-- The scan finds exactly the issue numbers of the references occurring in
`s` (with enough fuel). -/
theorem scanBody_iff : ∀ (fuel : Nat) (s : List Char), s.length ≤ fuel →
    ∀ n, (n ∈ scanBody fuel s ↔ RefIn s n) := by
  intro fuel
  induction fuel with
  | zero =>
    intro s hs n
    have hnil : s = [] := List.eq_nil_of_length_eq_zero (Nat.le_zero.mp hs)
    subst hnil
    simp only [scanBody]
    constructor
    · intro h; simp at h
    · intro h; exact absurd h (refIn_nil n)
  | succ fuel ih =>
    intro s hs n
    cases s with
    | nil =>
      simp only [scanBody]
      constructor
      · intro h; simp at h
      · intro h; exact absurd h (refIn_nil n)
    | cons c cs =>
      simp only [scanBody]
      cases hm : matchAt (c :: cs) with
      | none =>
        simp only []
        have hcs : cs.length ≤ fuel := by simp at hs; omega
        rw [ih cs hcs n]
        constructor
        · rintro ⟨a, t, heq, hdec⟩
          exact ⟨c :: a, t, by rw [heq]; rfl, hdec⟩
        · rintro ⟨a, t, heq, hdec⟩
          cases a with
          | nil =>
            exfalso
            simp only [List.nil_append] at heq
            obtain ⟨rest2, hsplit⟩ := hdec
            rw [← heq] at hsplit
            rcases matchAt_complete _ _ _ hsplit with ⟨z, hz⟩
            rw [hz] at hm
            exact absurd hm (by simp)
          | cons a0 a2 =>
            rw [List.cons_append] at heq
            injection heq with _ h2
            exact ⟨a2, t, h2, hdec⟩
      | some z =>
        obtain ⟨m, rest⟩ := z
        simp only []
        obtain ⟨kw, pre, sp, ds, hkw, hmap, hsp, hspall, hds, hdsall, hrest, hn, hseq⟩ :=
          matchAt_sound _ _ _ hm
        have hrestlen : rest.length ≤ fuel := by
          have hlen : (c :: cs).length
              = pre.length + (sp.length + (1 + (ds.length + rest.length))) := by
            rw [hseq]; simp [List.length_append]; omega
          simp only [List.length_cons] at hlen hs
          omega
        constructor
        · intro h
          rcases List.mem_cons.mp h with hnm | hmem
          · subst hnm
            exact ⟨[], c :: cs, rfl, rest, kw, pre, sp, ds, hkw, hmap, hsp, hspall,
              hds, hdsall, hrest, hn, hseq⟩
          · rw [ih rest hrestlen n] at hmem
            rcases hmem with ⟨a, t, heq, hdec⟩
            refine ⟨pre ++ (sp ++ hashChar :: ds) ++ a, t, ?_, hdec⟩
            rw [hseq, heq]
            simp [List.append_assoc]
        · rintro ⟨a, t, heq, hdec⟩
          by_cases haemp : a = []
          · subst haemp
            simp only [List.nil_append] at heq
            obtain ⟨rest2, hsplit2⟩ := hdec
            rw [← heq] at hsplit2
            have huniq := refsplit_unique (c :: cs) n m rest2 rest hsplit2
              ⟨kw, pre, sp, ds, hkw, hmap, hsp, hspall, hds, hdsall, hrest, hn, hseq⟩
            rw [huniq.1]
            exact List.mem_cons_self m _
          · have hinr := ref_inside_rest (c :: cs) m rest
              ⟨kw, pre, sp, ds, hkw, hmap, hsp, hspall, hds, hdsall, hrest, hn, hseq⟩
              a t heq haemp n hdec
            rcases hinr with ⟨w, hw⟩
            have hmem : RefIn rest n := ⟨w, t, hw, hdec⟩
            rw [← ih rest hrestlen n] at hmem
            exact List.mem_cons_of_mem m hmem

/-- The specification-level reading of a linked-issue reference in a body. -/
def SpecLinkedRef (body : Option (List Char)) (n : Nat) : Prop :=
  ∃ s, body = some s ∧ RefIn s n

/-! ## Substring containment and bot-comment markers -/

theorem startsWith_iff (needle : List Char) :
    ∀ hay : List Char, needle.isPrefixOf hay = true ↔ ∃ b, hay = needle ++ b := by
  induction needle with
  | nil =>
    intro hay
    constructor
    · intro _; exact ⟨hay, rfl⟩
    · intro _; simp [List.isPrefixOf]
  | cons x xs ih =>
    intro hay
    cases hay with
    | nil =>
      simp only [List.isPrefixOf]
      constructor
      · intro h; exact absurd h (by simp)
      · rintro ⟨b, hb⟩; simp at hb
    | cons y ys =>
      simp only [List.isPrefixOf, Bool.and_eq_true, beq_iff_eq, ih ys]
      constructor
      · rintro ⟨hxy, b, hb⟩
        exact ⟨b, by rw [hxy, hb]; rfl⟩
      · rintro ⟨b, hb⟩
        rw [List.cons_append] at hb
        injection hb with h1 h2
        exact ⟨h1.symm, b, h2⟩

theorem containsSub_iff (needle : List Char) :
    ∀ hay : List Char, containsSub needle hay = true ↔ SubOf needle hay := by
  intro hay
  induction hay with
  | nil =>
    simp only [containsSub, SubOf, List.isEmpty_iff]
    constructor
    · intro h
      exact ⟨[], [], by simp [h]⟩
    · rintro ⟨a, b, hab⟩
      rcases List.append_eq_nil.mp (List.append_eq_nil.mp hab.symm).1 with ⟨_, h2⟩
      exact h2
  | cons c cs ih =>
    simp only [containsSub, Bool.or_eq_true, startsWith_iff, ih]
    constructor
    · rintro (⟨b, hb⟩ | ⟨a, b, hab⟩)
      · exact ⟨[], b, by simp [hb]⟩
      · exact ⟨c :: a, b, by simp [hab]⟩
    · rintro ⟨a, b, hab⟩
      cases a with
      | nil => exact Or.inl ⟨b, by simpa using hab⟩
      | cons a0 a2 =>
        right
        rw [List.cons_append, List.cons_append] at hab
        injection hab with _ h2
        exact ⟨a2, b, h2⟩

instance (n h : List Char) : Decidable (SubOf n h) :=
  decidable_of_iff _ (containsSub_iff n h)

/-- Some fetched comment is a bot comment whose lowered body contains the
lowered marker: the property `has_bot_comment` scans for. -/
def HasBotMarker (cs : List Comment) (marker : List Char) : Prop :=
  ∃ c ∈ cs, c.userType = "Bot" ∧ SubOf (marker.map pyLower) (c.body.map pyLower)

instance (cs : List Comment) (m : List Char) : Decidable (HasBotMarker cs m) := by
  unfold HasBotMarker
  infer_instance

theorem has_bot_comment_ok (cs : List Comment) (m : List Char) :
    has_bot_comment (Except.ok cs) m = true ↔ HasBotMarker cs m := by
  simp only [has_bot_comment, List.any_eq_true, HasBotMarker, Bool.and_eq_true, beq_iff_eq,
    containsSub_iff]

/-! ## Characterizations of the reassignment loops -/

/-- An issue the reopen/activity loops actually mutate: found, a real issue,
and with no assignees at all. -/
def reassignable (repo : Repo) (n : Nat) : Bool :=
  match repo.issues n with
  | Except.error _ => false
  | Except.ok issue => !issue.isPR && decide (issue.assignees = [])

theorem reassignStep_eq (repo : Repo) (prn : Nat) (author : String)
    (acc : List Effect × List Nat) (n : Nat) :
    reassignStep repo prn author acc n =
      if reassignable repo n then
        (acc.1 ++ [Effect.addAssignee n author,
                   Effect.createComment n (Msg.welcomeMessage author prn)],
         acc.2 ++ [n])
      else acc := by
  unfold reassignStep reassignable
  cases hi : repo.issues n with
  | error e => simp
  | ok issue =>
    simp only []
    by_cases hpr : issue.isPR
    · rw [if_pos hpr]; simp [hpr]
    · rw [if_neg hpr]
      by_cases hnil : issue.assignees = []
      · have h2 : author ∉ issue.assignees := by rw [hnil]; simp
        rw [if_neg (fun h => h.1 hnil), if_pos h2]
        simp [hpr, hnil]
      · by_cases hmem : author ∈ issue.assignees
        · rw [if_neg (fun h => h.2 hmem), if_neg (fun h => h hmem)]
          simp [hnil]
        · rw [if_pos ⟨hnil, hmem⟩]
          simp [hnil]

theorem reassign_foldl (repo : Repo) (prn : Nat) (author : String) :
    ∀ (L : List Nat) (acc : List Effect × List Nat),
      L.foldl (reassignStep repo prn author) acc
        = (acc.1 ++ (L.filter (fun n => reassignable repo n)).flatMap
             (fun n => [Effect.addAssignee n author,
                        Effect.createComment n (Msg.welcomeMessage author prn)]),
           acc.2 ++ L.filter (fun n => reassignable repo n)) := by
  intro L
  induction L with
  | nil => intro acc; simp
  | cons n L2 ih =>
    intro acc
    rw [List.foldl_cons, ih, reassignStep_eq]
    by_cases hr : reassignable repo n
    · simp [hr, List.filter_cons, List.append_assoc]
    · simp [hr, List.filter_cons]

theorem activityStep_eq (repo : Repo) (commenter : String)
    (acc : List Effect × Nat) (n : Nat) :
    activityStep repo commenter acc n =
      if reassignable repo n then
        (acc.1 ++ [Effect.addAssignee n commenter], acc.2 + 1)
      else acc := by
  unfold activityStep reassignable
  cases hi : repo.issues n with
  | error e => simp
  | ok issue =>
    simp only []
    by_cases hpr : issue.isPR
    · simp [hpr]
    · by_cases hnil : issue.assignees = []
      · simp [hpr, hnil]
      · simp [hpr, hnil]

theorem activity_foldl (repo : Repo) (commenter : String) :
    ∀ (L : List Nat) (acc : List Effect × Nat),
      L.foldl (activityStep repo commenter) acc
        = (acc.1 ++ (L.filter (fun n => reassignable repo n)).flatMap
             (fun n => [Effect.addAssignee n commenter]),
           acc.2 + (L.filter (fun n => reassignable repo n)).length) := by
  intro L
  induction L with
  | nil => intro acc; simp
  | cons n L2 ih =>
    intro acc
    rw [List.foldl_cons, ih, activityStep_eq]
    by_cases hr : reassignable repo n
    · simp [hr, List.filter_cons, List.append_assoc]
      omega
    · simp [hr, List.filter_cons]

/-! ## Characterization of the activity computation -/

/-- The running `last_author_activity` update of `get_days_since_activity`. -/
def optMax (la : Option Int) (x : Int) : Option Int :=
  match la with
  | none => some x
  | some d => if d < x then some x else some d

theorem optMax_spec (init : Option Int) (x : Int) :
    ∃ v, optMax init x = some v ∧ x ≤ v ∧ (∀ d, init = some d → d ≤ v) ∧
      (v = x ∨ init = some v) := by
  cases init with
  | none => exact ⟨x, rfl, le_refl x, by simp, Or.inl rfl⟩
  | some d0 =>
    by_cases h : d0 < x
    · refine ⟨x, by simp [optMax, h], le_refl x, ?_, Or.inl rfl⟩
      intro d hd
      injection hd with hd
      omega
    · refine ⟨d0, by simp [optMax, h], by omega, ?_, Or.inr rfl⟩
      intro d hd
      injection hd with hd
      omega

theorem foldl_optMax_spec : ∀ (xs : List Int) (init : Option Int),
    (xs.foldl optMax init = none ↔ (init = none ∧ xs = [])) ∧
    (∀ r, xs.foldl optMax init = some r →
       (r ∈ xs ∨ init = some r) ∧ (∀ x ∈ xs, x ≤ r) ∧ (∀ d, init = some d → d ≤ r)) := by
  intro xs
  induction xs with
  | nil =>
    intro init
    constructor
    · simp
    · intro r h
      exact ⟨Or.inr h, by simp, fun d hd => by rw [hd] at h; injection h with h; omega⟩
  | cons x xt ih =>
    intro init
    obtain ⟨v, hv, hxv, hinitv, hvcase⟩ := optMax_spec init x
    constructor
    · rw [List.foldl_cons, hv]
      constructor
      · intro h
        rcases ((ih (some v)).1.mp h) with ⟨h1, _⟩
        exact absurd h1 (by simp)
      · rintro ⟨_, h2⟩
        simp at h2
    · intro r h
      rw [List.foldl_cons, hv] at h
      obtain ⟨hmem, hub, hge⟩ := (ih (some v)).2 r h
      have hvr : v ≤ r := hge v rfl
      refine ⟨?_, ?_, ?_⟩
      · rcases hmem with hm | hm
        · exact Or.inl (List.mem_cons_of_mem x hm)
        · injection hm with hm
          rcases hvcase with hc | hc
          · left
            rw [← hm, hc]
            exact List.mem_cons_self x xt
          · right
            rw [← hm]
            exact hc
      · intro y hy
        rcases List.mem_cons.mp hy with hy2 | hy2
        · subst hy2; omega
        · exact hub y hy2
      · intro d hd
        have := hinitv d hd
        omega

/-- The authored activity after the review, as the specification lists it:
commit dates by the author after the review, then the author's comment
creation times after the review. -/
def qualifyingActivity (author : String) (lcr : Int)
    (commits : List Commit) (comments : List Comment) : List Int :=
  (commits.filter (fun c => decide (lcr < c.date) && decide (c.authorLogin = some author))).map
      Commit.date
    ++ (comments.filter (fun c => decide (c.userLogin = author) && decide (lcr < c.created_at))).map
      Comment.created_at

theorem commits_fold_eq (author : String) (lcr : Int) :
    ∀ (commits : List Commit) (init : Option Int),
      commits.foldl (fun la c =>
        if lcr < c.date then
          if c.authorLogin = some author then
            match la with
            | none => some c.date
            | some d => if d < c.date then some c.date else some d
          else la
        else la) init
      = ((commits.filter (fun c =>
            decide (lcr < c.date) && decide (c.authorLogin = some author))).map
          Commit.date).foldl optMax init := by
  intro commits
  induction commits with
  | nil => intro init; rfl
  | cons c ct ih =>
    intro init
    rw [List.foldl_cons, List.filter_cons]
    by_cases h1 : lcr < c.date
    · by_cases h2 : c.authorLogin = some author
      · rw [if_pos h1, if_pos h2]
        simp only [h1, h2, decide_True, Bool.and_self, if_pos]
        rw [List.map_cons, List.foldl_cons]
        rw [ih]
        rfl
      · rw [if_pos h1, if_neg h2]
        simp only [h2, decide_False, Bool.and_false, if_neg]
        rw [ih]
        simp [h2]
    · rw [if_neg h1]
      rw [ih]
      simp [h1]

theorem comments_fold_eq (author : String) (lcr : Int) :
    ∀ (comments : List Comment) (init : Option Int),
      comments.foldl (fun la c =>
        if c.userLogin = author then
          if lcr < c.created_at then
            match la with
            | none => some c.created_at
            | some d => if d < c.created_at then some c.created_at else some d
          else la
        else la) init
      = ((comments.filter (fun c =>
            decide (c.userLogin = author) && decide (lcr < c.created_at))).map
          Comment.created_at).foldl optMax init := by
  intro comments
  induction comments with
  | nil => intro init; rfl
  | cons c ct ih =>
    intro init
    rw [List.foldl_cons, List.filter_cons]
    by_cases h1 : c.userLogin = author
    · by_cases h2 : lcr < c.created_at
      · rw [if_pos h1, if_pos h2]
        simp only [h1, h2, decide_True, Bool.and_self, if_pos]
        rw [List.map_cons, List.foldl_cons]
        rw [ih]
        rfl
      · rw [if_pos h1, if_neg h2]
        simp only [h2, decide_False, Bool.and_false, if_neg]
        rw [ih]
        simp [h2]
    · rw [if_neg h1]
      rw [ih]
      simp [h1]

/-- `get_days_since_activity` computed through `qualifyingActivity`. -/
theorem get_days_eq_fold (now lcr : Int) (pr : PR) (cmts : List Commit) (cos : List Comment)
    (hc : pr.commits = Except.ok cmts) (hco : pr.fetchComments 0 = Except.ok cos) :
    get_days_since_activity now pr (some lcr)
      = (now - (((qualifyingActivity pr.authorLogin lcr cmts cos).foldl optMax none).getD
          lcr)).fdiv 86400 := by
  unfold get_days_since_activity
  rw [hc, hco]
  simp only []
  rw [commits_fold_eq, comments_fold_eq]
  unfold qualifyingActivity
  rw [List.foldl_append]

/-- The per-PR branch of `process_stale_prs`, written out for a PR whose
most recent changes-requested review is at time `t`. -/
theorem process_one_pr_eq (repo : Repo) (now : Int) (pr : PR) (t : Int)
    (hlcr : get_last_changes_requested pr = some t) :
    process_one_pr repo now pr =
      (if DAYS_BEFORE_CLOSE ≤ get_days_since_activity now pr (some t) then
         close_stale_pr repo pr (get_days_since_activity now pr (some t))
       else if DAYS_BEFORE_UNASSIGN ≤ get_days_since_activity now pr (some t) then
         (if !has_bot_comment (pr.fetchComments 1) ("stale".data)
             && !has_bot_comment (pr.fetchComments 2) ("unassigned".data) then
            mark_pr_stale repo pr (get_days_since_activity now pr (some t))
          else [])
       else if DAYS_BEFORE_STALE_WARNING ≤ get_days_since_activity now pr (some t) then
         (if !has_bot_comment (pr.fetchComments 1) ("reminder".data)
             && !has_bot_comment (pr.fetchComments 2) ("stale warning".data) then
            send_stale_warning pr (get_days_since_activity now pr (some t))
          else [])
       else []) := by
  unfold process_one_pr
  rw [hlcr]

/-! ## Claim theorems -/

/-- C4: For every PR body string (including empty or absent), the
linked-issue extractor returns a deduplicated collection of issue numbers,
one for each reference matching a keyword in {fix, fixes, close, closes,
closed, resolve, resolves, resolved} followed by `#<N>`, matched
case-insensitively; an empty or absent body, or a body with no matching
reference, yields an empty collection. -/
theorem extract_linked_issues_spec (body : Option (List Char)) :
    (extract_linked_issues body).Nodup ∧
    (∀ n, n ∈ extract_linked_issues body ↔ SpecLinkedRef body n) ∧
    ((∀ n, ¬ SpecLinkedRef body n) → extract_linked_issues body = []) ∧
    extract_linked_issues none = [] ∧ extract_linked_issues (some []) = [] := by
  have hmain : ∀ b : Option (List Char),
      (extract_linked_issues b).Nodup ∧
      (∀ n, n ∈ extract_linked_issues b ↔ SpecLinkedRef b n) := by
    intro b
    cases b with
    | none =>
      exact ⟨by simp [extract_linked_issues],
        fun n => by simp [extract_linked_issues, SpecLinkedRef]⟩
    | some s =>
      by_cases hsnil : s = []
      · subst hsnil
        refine ⟨by simp [extract_linked_issues], fun n => ?_⟩
        simp only [extract_linked_issues, if_pos rfl]
        constructor
        · intro h; simp at h
        · rintro ⟨s2, heq, href⟩
          injection heq with heq
          rw [← heq] at href
          exact absurd href (refIn_nil n)
      · constructor
        · simp only [extract_linked_issues, if_neg hsnil]
          exact List.nodup_dedup _
        · intro n
          simp only [extract_linked_issues, if_neg hsnil]
          rw [List.mem_dedup, scanBody_iff s.length s le_rfl n]
          constructor
          · intro h; exact ⟨s, rfl, h⟩
          · rintro ⟨s2, heq, href⟩
            injection heq with heq
            rw [← heq] at href
            exact href
  refine ⟨(hmain body).1, (hmain body).2, ?_, rfl, rfl⟩
  intro hno
  apply List.eq_nil_iff_forall_not_mem.mpr
  intro n hmem
  exact hno n (((hmain body).2 n).mp hmem)

theorem extract_linked_issues_spec_witness :
    (extract_linked_issues (some ("fixes #12".data))).Nodup ∧
    (12 ∈ extract_linked_issues (some ("fixes #12".data)) ↔
      SpecLinkedRef (some ("fixes #12".data)) 12) :=
  ⟨(extract_linked_issues_spec (some ("fixes #12".data))).1,
   (extract_linked_issues_spec (some ("fixes #12".data))).2.1 12⟩

/-- C2: for a PR whose commit and comment listings succeed and whose most
recent changes-requested review is at time `lcr`, the computed days of
inactivity are the whole days (floored) from `now` back to the latest
qualifying activity — a commit by the author dated after `lcr` or an issue
comment by the author created after `lcr` — falling back to `lcr` itself
when no such activity exists. -/
theorem days_since_activity_spec (now : Int) (pr : PR) (lcr : Int)
    (cmts : List Commit) (cos : List Comment)
    (hc : pr.commits = Except.ok cmts) (hco : pr.fetchComments 0 = Except.ok cos) :
    (qualifyingActivity pr.authorLogin lcr cmts cos = [] →
      get_days_since_activity now pr (some lcr) = (now - lcr).fdiv 86400) ∧
    (qualifyingActivity pr.authorLogin lcr cmts cos ≠ [] →
      ∃ r, r ∈ qualifyingActivity pr.authorLogin lcr cmts cos ∧
        (∀ x ∈ qualifyingActivity pr.authorLogin lcr cmts cos, x ≤ r) ∧
        get_days_since_activity now pr (some lcr) = (now - r).fdiv 86400) := by
  rw [get_days_eq_fold now lcr pr cmts cos hc hco]
  constructor
  · intro h
    rw [h]
    rfl
  · intro h
    cases hfold : (qualifyingActivity pr.authorLogin lcr cmts cos).foldl optMax none with
    | none =>
      exact absurd ((foldl_optMax_spec _ none).1.mp hfold).2 h
    | some r =>
      obtain ⟨hmem, hub, _⟩ := (foldl_optMax_spec _ none).2 r hfold
      refine ⟨r, ?_, hub, rfl⟩
      rcases hmem with hm | hm
      · exact hm
      · exact absurd hm (by simp)

def prW2 : PR :=
  { number := 2, authorLogin := "bob", body := none,
    commits := Except.ok [{ authorLogin := some "bob", date := 100 }],
    reviews := Except.ok [],
    fetchComments := fun _ => Except.ok [] }

theorem days_since_activity_spec_witness :
    ∃ r, r ∈ qualifyingActivity prW2.authorLogin 0
        [{ authorLogin := some "bob", date := 100 }] [] ∧
      (∀ x ∈ qualifyingActivity prW2.authorLogin 0
        [{ authorLogin := some "bob", date := 100 }] [], x ≤ r) ∧
      get_days_since_activity 200 prW2 (some 0) = (200 - r).fdiv 86400 :=
  (days_since_activity_spec 200 prW2 0 _ _ rfl rfl).2 (by decide)

/-- C3 counterexample: PR body `fixes #12`, author `alice`, and issue 12
whose only current assignee is already `alice`.  The claim places this in
the branch that re-adds the assignee, posts a welcome comment, and returns
`[12]`; the code performs no mutation and returns the empty list. -/
def issueC3 : Issue := { number := 12, isPR := false, assignees := ["alice"] }

def repoC3 : Repo :=
  { issues := fun n => if n = 12 then Except.ok issueC3 else Except.error ()
    pulls := fun _ => Except.error () }

theorem reassign_self_assigned_counterexample :
    reassign_issues_to_author repoC3 5 "alice" (some ("fixes #12".data)) = ([], []) := by
  decide

/-- C3 (amended): for every linked issue: skipped if it is a pull request or
not found; left unmodified and excluded from the result if it has any
assignees — including when its only assignee is already the PR author;
otherwise (no assignees at all) the author is added and a welcome comment
posted, and the function returns exactly the issue numbers so reassigned. -/
theorem reassign_issues_spec (repo : Repo) (prn : Nat) (author : String)
    (body : Option (List Char)) :
    (reassign_issues_to_author repo prn author body).2
      = (extract_linked_issues body).filter (fun n => reassignable repo n) ∧
    (reassign_issues_to_author repo prn author body).1
      = ((extract_linked_issues body).filter (fun n => reassignable repo n)).flatMap
          (fun n => [Effect.addAssignee n author,
                     Effect.createComment n (Msg.welcomeMessage author prn)]) := by
  unfold reassign_issues_to_author
  rw [reassign_foldl]
  simp

/-- C1: for every open PR with a most recent changes-requested review (and
comment listings that succeed), exactly the highest-severity tier whose
threshold is met is applied: at `60 ≤ d` the close tier fires regardless of
prior bot comments; at `14 ≤ d < 60` the unassign tier fires iff no prior
bot comment contains `stale` or `unassigned`; at `7 ≤ d < 14` the warn tier
fires iff no prior bot comment contains `reminder` or `stale warning`; below
7 days nothing fires. -/
theorem stale_tier_selection (repo : Repo) (now : Int) (pr : PR) (t d : Int) (cs : List Comment)
    (hlcr : get_last_changes_requested pr = some t)
    (hfetch : ∀ i, pr.fetchComments i = Except.ok cs)
    (hd : d = get_days_since_activity now pr (some t)) :
    (60 ≤ d → process_one_pr repo now pr = close_stale_pr repo pr d) ∧
    (14 ≤ d → d < 60 → process_one_pr repo now pr =
       (if HasBotMarker cs ("stale".data) ∨ HasBotMarker cs ("unassigned".data) then []
        else mark_pr_stale repo pr d)) ∧
    (7 ≤ d → d < 14 → process_one_pr repo now pr =
       (if HasBotMarker cs ("reminder".data) ∨ HasBotMarker cs ("stale warning".data) then []
        else send_stale_warning pr d)) ∧
    (d < 7 → process_one_pr repo now pr = []) := by
  have hbeq : ∀ (i : Nat) (m : List Char),
      has_bot_comment (pr.fetchComments i) m = decide (HasBotMarker cs m) := by
    intro i m
    rw [hfetch i]
    by_cases h : HasBotMarker cs m
    · rw [(has_bot_comment_ok cs m).mpr h]
      simp [h]
    · rw [Bool.eq_false_iff.mpr (fun hb => h ((has_bot_comment_ok cs m).mp hb))]
      simp [h]
  have hCc : DAYS_BEFORE_CLOSE = (60 : Int) := rfl
  have hCu : DAYS_BEFORE_UNASSIGN = (14 : Int) := rfl
  have hCw : DAYS_BEFORE_STALE_WARNING = (7 : Int) := rfl
  have hproc := process_one_pr_eq repo now pr t hlcr
  rw [← hd, hCc, hCu, hCw, hbeq 1, hbeq 2, hbeq 1, hbeq 2] at hproc
  refine ⟨?_, ?_, ?_, ?_⟩
  · intro h60
    rw [hproc, if_pos h60]
  · intro h14 h60
    rw [hproc, if_neg (by omega), if_pos h14]
    by_cases hp1 : HasBotMarker cs ("stale".data)
    · simp [hp1]
    · by_cases hp2 : HasBotMarker cs ("unassigned".data)
      · simp [hp1, hp2]
      · simp [hp1, hp2]
  · intro h7 h14
    rw [hproc, if_neg (by omega), if_neg (by omega), if_pos h7]
    by_cases hp1 : HasBotMarker cs ("reminder".data)
    · simp [hp1]
    · by_cases hp2 : HasBotMarker cs ("stale warning".data)
      · simp [hp1, hp2]
      · simp [hp1, hp2]
  · intro hlt
    rw [hproc, if_neg (by omega), if_neg (by omega), if_neg (by omega)]

def repoW : Repo := { issues := fun _ => Except.error (), pulls := fun _ => Except.error () }

def prW1 : PR :=
  { number := 1, authorLogin := "alice", body := none,
    commits := Except.ok [],
    reviews := Except.ok [{ state := "CHANGES_REQUESTED", submitted_at := 0 }],
    fetchComments := fun _ => Except.ok [] }

theorem stale_tier_selection_witness :
    process_one_pr repoW 5270400 prW1 = close_stale_pr repoW prW1 61 :=
  (stale_tier_selection repoW 5270400 prW1 0 61 [] rfl (fun _ => rfl) (by decide)).1
    (by decide)

/-- C5: an open PR none of whose reviews is in state changes-requested is
never acted upon by the stale bot — no effect of any kind is issued for it,
regardless of its age or inactivity. -/
theorem no_changes_requested_no_action (repo : Repo) (now : Int) (pr : PR) (rs : List Review)
    (hrev : pr.reviews = Except.ok rs)
    (hnone : ∀ r ∈ rs, r.state ≠ "CHANGES_REQUESTED") :
    get_last_changes_requested pr = none ∧ process_one_pr repo now pr = [] := by
  have h1 : get_last_changes_requested pr = none := by
    unfold get_last_changes_requested
    rw [hrev]
    simp only []
    have hf : rs.filter (fun r => decide (r.state = "CHANGES_REQUESTED")) = [] := by
      apply List.filter_eq_nil_iff.mpr
      intro r hr
      simp [hnone r hr]
    rw [hf]
  refine ⟨h1, ?_⟩
  unfold process_one_pr
  rw [h1]

def prW5 : PR :=
  { number := 3, authorLogin := "carla", body := none,
    commits := Except.error (),
    reviews := Except.ok [{ state := "APPROVED", submitted_at := 5 }],
    fetchComments := fun _ => Except.error () }

theorem no_changes_requested_no_action_witness :
    get_last_changes_requested prW5 = none ∧ process_one_pr repoW 0 prW5 = [] :=
  no_changes_requested_no_action repoW 0 prW5 _ rfl (by decide)

/-- C9: `has_bot_comment` returns `false` whenever the comment listing
raises, so for a PR whose guard-time comment retrievals fail the unassign
(and warn) idempotency guards pass and the tier action — including its
comment — is performed again, even though a matching prior bot comment
exists in the comment list seen by the activity computation. -/
theorem has_bot_comment_error_bypass (repo : Repo) (now : Int) (pr : PR) (t d : Int)
    (cs : List Comment)
    (hlcr : get_last_changes_requested pr = some t)
    (h0 : pr.fetchComments 0 = Except.ok cs)
    (h1 : pr.fetchComments 1 = Except.error ())
    (h2 : pr.fetchComments 2 = Except.error ())
    (hd : d = get_days_since_activity now pr (some t))
    (h14 : 14 ≤ d) (h60 : d < 60)
    (hexists : HasBotMarker cs ("stale".data)) :
    (∀ m, has_bot_comment (Except.error ()) m = false) ∧
    process_one_pr repo now pr = mark_pr_stale repo pr d := by
  have hCc : DAYS_BEFORE_CLOSE = (60 : Int) := rfl
  have hCu : DAYS_BEFORE_UNASSIGN = (14 : Int) := rfl
  have hproc := process_one_pr_eq repo now pr t hlcr
  rw [← hd, hCc, hCu, h1, h2] at hproc
  refine ⟨fun m => rfl, ?_⟩
  rw [hproc, if_neg (by omega), if_pos h14]
  simp [has_bot_comment]

def botCommentW9 : Comment :=
  { userLogin := "openwisp-bot", userType := "Bot", body := "stale".data, created_at := 1 }

def prW9 : PR :=
  { number := 4, authorLogin := "alice", body := none,
    commits := Except.ok [],
    reviews := Except.ok [{ state := "CHANGES_REQUESTED", submitted_at := 0 }],
    fetchComments := fun i => if i = 0 then Except.ok [botCommentW9] else Except.error () }

theorem has_bot_comment_error_bypass_witness :
    (∀ m, has_bot_comment (Except.error ()) m = false) ∧
    process_one_pr repoW 1728000 prW9 = mark_pr_stale repoW prW9 20 :=
  has_bot_comment_error_bypass repoW 1728000 prW9 0 20 [botCommentW9]
    rfl rfl rfl rfl (by decide) (by decide) (by decide) (by decide)

/-- C10: `get_days_since_activity` returns 0 when the changes-requested
timestamp is absent or when fetching the commits or the comments fails; for
such a PR no staleness tier fires in the run, 0 being below every
threshold. -/
theorem activity_error_zero (repo : Repo) (now : Int) (pr : PR) (t : Int)
    (herr : pr.commits = Except.error () ∨ pr.fetchComments 0 = Except.error ()) :
    (∀ (q : PR), get_days_since_activity now q none = 0) ∧
    get_days_since_activity now pr (some t) = 0 ∧
    process_one_pr repo now pr = [] := by
  have hzero : ∀ t2 : Int, get_days_since_activity now pr (some t2) = 0 := by
    intro t2
    unfold get_days_since_activity
    rcases herr with he | he
    · rw [he]
    · rw [he]
      cases pr.commits <;> rfl
  refine ⟨fun q => rfl, hzero t, ?_⟩
  cases hl : get_last_changes_requested pr with
  | none =>
    unfold process_one_pr
    rw [hl]
  | some t2 =>
    rw [process_one_pr_eq repo now pr t2 hl, hzero t2]
    rfl

def prW10 : PR :=
  { number := 6, authorLogin := "dana", body := none,
    commits := Except.error (),
    reviews := Except.ok [{ state := "CHANGES_REQUESTED", submitted_at := 0 }],
    fetchComments := fun _ => Except.ok [] }

theorem activity_error_zero_witness :
    (∀ (q : PR), get_days_since_activity 864000 q none = 0) ∧
    get_days_since_activity 864000 prW10 (some 0) = 0 ∧
    process_one_pr repoW 864000 prW10 = [] :=
  activity_error_zero repoW 864000 prW10 0 (Or.inl rfl)

theorem reassignable_ok (repo : Repo) (n : Nat) (h : reassignable repo n = true) :
    ∃ issue, repo.issues n = Except.ok issue ∧ issue.isPR = false ∧ issue.assignees = [] := by
  unfold reassignable at h
  cases hi : repo.issues n with
  | error e => rw [hi] at h; simp at h
  | ok issue =>
    rw [hi] at h
    simp only [Bool.and_eq_true, Bool.not_eq_true', decide_eq_true_eq] at h
    exact ⟨issue, rfl, h.1, h.2⟩

/-- C6: in every run of the reopen bot and of the activity bot, an
add-assignee mutation is issued only for an issue that currently has no
assignee at all (which in particular satisfies "no assignee, or sole
assignee already the author/commenter"). -/
theorem addAssignee_invariant (repo : Repo) (rp : Option ReopenPayload)
    (cp : Option CommentPayload) (i : Nat) (u : String) :
    (Effect.addAssignee i u ∈ (handle_pr_reopen repo rp).1 →
      ∃ issue, repo.issues i = Except.ok issue ∧
        (issue.assignees = [] ∨ issue.assignees = [u])) ∧
    (Effect.addAssignee i u ∈ (handle_contributor_activity repo cp).1 →
      ∃ issue, repo.issues i = Except.ok issue ∧
        (issue.assignees = [] ∨ issue.assignees = [u])) := by
  constructor
  · intro hmem
    cases rp with
    | none => simp [handle_pr_reopen] at hmem
    | some p =>
      unfold handle_pr_reopen at hmem
      simp only [] at hmem
      by_cases hcond : (p.pull_request.bind fun q => q.number).getD 0 = 0 ∨
          (p.pull_request.bind fun q => q.userLogin).getD "" = ""
      · rw [if_pos hcond] at hmem
        simp at hmem
      · rw [if_neg hcond] at hmem
        simp only [] at hmem
        rcases List.mem_append.mp hmem with hm | hm
        · unfold reassign_issues_to_author at hm
          rw [reassign_foldl] at hm
          simp only [List.nil_append] at hm
          rcases List.mem_flatMap.mp hm with ⟨n2, hn2, hm2⟩
          have hr : reassignable repo n2 = true := (List.mem_filter.mp hn2).2
          obtain ⟨issue, hoi, _, hass⟩ := reassignable_ok repo n2 hr
          simp only [List.mem_cons, List.not_mem_nil, or_false] at hm2
          rcases hm2 with he | he
          · injection he with ha _
            exact ⟨issue, by rw [ha]; exact hoi, Or.inl hass⟩
          · exact absurd he (by simp)
        · unfold remove_stale_label at hm
          cases hp : repo.pulls ((p.pull_request.bind fun q => q.number).getD 0) with
          | error e => rw [hp] at hm; simp at hm
          | ok pri =>
            rw [hp] at hm
            simp only [] at hm
            by_cases hl : "stale" ∈ pri.labels
            · rw [if_pos hl] at hm
              simp at hm
            · rw [if_neg hl] at hm
              simp at hm
  · intro hmem
    cases cp with
    | none => simp [handle_contributor_activity] at hmem
    | some p =>
      unfold handle_contributor_activity at hmem
      simp only [] at hmem
      by_cases hcond : p.issueNumber.getD 0 = 0 ∨ p.commenterLogin.getD "" = ""
      · rw [if_pos hcond] at hmem
        simp at hmem
      · rw [if_neg hcond] at hmem
        cases hp : repo.pulls (p.issueNumber.getD 0) with
        | error e => rw [hp] at hmem; simp at hmem
        | ok pri =>
          rw [hp] at hmem
          simp only [] at hmem
          by_cases hne : p.commenterLogin.getD "" ≠ pri.authorLogin
          · rw [if_pos hne] at hmem
            simp at hmem
          · rw [if_neg hne] at hmem
            by_cases hst : "stale" ∉ pri.labels
            · rw [if_pos hst] at hmem
              simp at hmem
            · rw [if_neg hst] at hmem
              simp only [] at hmem
              rw [activity_foldl] at hmem
              simp only [List.nil_append, List.mem_append, List.mem_cons,
                List.not_mem_nil, or_false] at hmem
              rcases hmem with (he | hm) | hc
              · exact absurd he (by simp)
              · rcases List.mem_flatMap.mp hm with ⟨n2, hn2, hm2⟩
                have hr : reassignable repo n2 = true := (List.mem_filter.mp hn2).2
                obtain ⟨issue, hoi, _, hass⟩ := reassignable_ok repo n2 hr
                simp only [List.mem_cons, List.not_mem_nil, or_false] at hm2
                injection hm2 with ha _
                exact ⟨issue, by rw [ha]; exact hoi, Or.inl hass⟩
              · exact absurd hc (by simp)

def issueW6 : Issue := { number := 12, isPR := false, assignees := [] }

def repoW6 : Repo :=
  { issues := fun n => if n = 12 then Except.ok issueW6 else Except.error ()
    pulls := fun _ => Except.error () }

def prPayloadW6 : PRPayload :=
  { number := some 5, userLogin := some "alice", body := some ("fixes #12".data) }

def payloadW6 : ReopenPayload := { pull_request := some prPayloadW6 }

theorem addAssignee_invariant_witness :
    ∃ issue, repoW6.issues 12 = Except.ok issue ∧
      (issue.assignees = [] ∨ issue.assignees = ["alice"]) :=
  (addAssignee_invariant repoW6 (some payloadW6) none 12 "alice").1 (by decide)

/-- C7: `handle_pr_reopen` returns false without a payload or when the PR
number or author is missing/falsy; otherwise it performs the issue
reassignment followed by the stale-label removal and returns true exactly
when at least one issue was reassigned — the label removal never influences
the returned flag. -/
theorem handle_pr_reopen_spec (repo : Repo) (p : ReopenPayload) :
    handle_pr_reopen repo none = ([], false) ∧
    ((p.pull_request.bind fun q => q.number).getD 0 = 0 ∨
        (p.pull_request.bind fun q => q.userLogin).getD "" = "" →
      handle_pr_reopen repo (some p) = ([], false)) ∧
    ((p.pull_request.bind fun q => q.number).getD 0 ≠ 0 →
      (p.pull_request.bind fun q => q.userLogin).getD "" ≠ "" →
      handle_pr_reopen repo (some p) =
        ((reassign_issues_to_author repo ((p.pull_request.bind fun q => q.number).getD 0)
            ((p.pull_request.bind fun q => q.userLogin).getD "")
            (p.pull_request.bind fun q => q.body)).1
          ++ (remove_stale_label repo ((p.pull_request.bind fun q => q.number).getD 0)).1,
         decide (0 < (reassign_issues_to_author repo
            ((p.pull_request.bind fun q => q.number).getD 0)
            ((p.pull_request.bind fun q => q.userLogin).getD "")
            (p.pull_request.bind fun q => q.body)).2.length))) := by
  refine ⟨rfl, ?_, ?_⟩
  · intro h
    unfold handle_pr_reopen
    simp only []
    rw [if_pos h]
  · intro h1 h2
    unfold handle_pr_reopen
    simp only []
    rw [if_neg (fun h => by rcases h with h | h; exact h1 h; exact h2 h)]

def repoW7 : Repo :=
  { issues := fun n => if n = 12 then Except.ok issueW6 else Except.error ()
    pulls := fun _ => Except.error () }

def prPayloadW7 : PRPayload :=
  { number := some 5, userLogin := some "alice", body := some ("fixes #12".data) }

def payloadW7 : ReopenPayload := { pull_request := some prPayloadW7 }

theorem handle_pr_reopen_spec_witness :
    handle_pr_reopen repoW7 (some payloadW7) =
      ((reassign_issues_to_author repoW7 5 "alice" (some ("fixes #12".data))).1
        ++ (remove_stale_label repoW7 5).1,
       decide (0 < (reassign_issues_to_author repoW7 5 "alice"
          (some ("fixes #12".data))).2.length)) :=
  (handle_pr_reopen_spec repoW7 payloadW7).2.2 (by decide) (by decide)

/-- C8: when the commenter is not the PR's author, or the PR carries no
stale label, `handle_contributor_activity` returns false and performs no
mutation at all — its effect trace is empty. -/
theorem contributor_activity_no_mutation (repo : Repo) (p : CommentPayload) (k : Nat)
    (u : String) (pr : PullInfo)
    (hk : p.issueNumber = some k) (hk0 : k ≠ 0)
    (hu : p.commenterLogin = some u) (hu0 : u ≠ "")
    (hpr : repo.pulls k = Except.ok pr)
    (hcond : u ≠ pr.authorLogin ∨ "stale" ∉ pr.labels) :
    handle_contributor_activity repo (some p) = ([], false) := by
  unfold handle_contributor_activity
  simp only [hk, hu, Option.getD_some]
  rw [if_neg (fun h => by rcases h with h | h; exact hk0 h; exact hu0 h)]
  rw [hpr]
  simp only []
  by_cases hau : u = pr.authorLogin
  · rcases hcond with hc | hc
    · exact absurd hau hc
    · rw [if_neg (fun h => h hau), if_pos hc]
  · rw [if_pos hau]

def pullW8 : PullInfo := { authorLogin := "dora", body := none, labels := [] }

def repoW8 : Repo :=
  { issues := fun _ => Except.error ()
    pulls := fun n => if n = 7 then Except.ok pullW8 else Except.error () }

def payloadW8 : CommentPayload := { issueNumber := some 7, commenterLogin := some "dora" }

theorem contributor_activity_no_mutation_witness :
    handle_contributor_activity repoW8 (some payloadW8) = ([], false) :=
  contributor_activity_no_mutation repoW8 payloadW8 7 "dora" pullW8
    rfl (by decide) rfl (by decide) rfl (Or.inr (by decide))

end IssueBot
